import Mathlib

/-!
Shallow embedding of the utility_programming crate (src/lib.rs).

Modelling choices:
* Scores (Rust f64) are modelled as rationals; the crate treats non-finite
  scores as a caller obligation, and the engine only adds and compares scores.
* Mutation in place is modelled by explicit state passing: a Rust method
  taking &mut T and returning R becomes a Lean function T -> R x T.
* The Modifier trait method modify takes &mut self and may be indeterministic
  (it draws from the process-wide rng); this ambient state (rng plus any
  modifier-internal state) is modelled by a type parameter rho threaded
  through modify.  The trait documentation requires undo and redo to be
  deterministic, so they are modelled as pure functions of the change record
  and the object.
* A Rust panic (index/modulo on an empty Vec) is modelled by Option.none.
-/

/-- The Utility trait: measures the utility of an object as a score. -/
structure Utility (T : Type) where
  utility : T → ℚ

/-- The impl of Utility for Vec: sums up utility from multiple sub-terms
(self.iter().map(|it| it.utility(obj)).sum()). -/
def vecUtility {T : Type} (us : List (Utility T)) : Utility T :=
  ⟨fun obj => (us.map (fun u => u.utility obj)).sum⟩

/-- The Generator trait: generates an object, possibly indeterministically;
the ambient randomness is the threaded state rho. -/
structure Generator (ρ α : Type) where
  generate : ρ → α × ρ

/-- The impl of Generator for Vec: draws a random usize n, picks the member at
index n % len and delegates to it.  On an empty Vec the Rust code evaluates
n % 0, which panics: modelled as none.  The parameter next models
rand::random::<usize>() reading the process-wide rng state. -/
def vecGenerate {ρ α : Type} (next : ρ → ℕ × ρ) (gs : List (Generator ρ α)) (r : ρ) :
    Option (α × ρ) :=
  if h : gs.length = 0 then none
  else
    some ((gs.get ⟨(next r).1 % gs.length,
      Nat.mod_lt _ (Nat.pos_of_ne_zero h)⟩).generate (next r).2)

/-- The Modifier trait: modify mutates the object and returns a change record
(possibly indeterministic, hence threading rho); undo and redo are required to
be deterministic, hence pure functions of the record and the object. -/
structure Modifier (ρ T C : Type) where
  modify : ρ → T → C × T × ρ
  undo : C → T → T
  redo : C → T → T

/-- The modify of the impl of Modifier for Vec: draws a random usize n, picks
index n % len, delegates to that member and pairs the index with the member
record.  On an empty Vec the Rust code evaluates n % 0, which panics:
modelled as none. -/
def vecModify {ρ T C : Type} (next : ρ → ℕ × ρ) (ms : List (Modifier ρ T C))
    (r : ρ) (obj : T) : Option ((ℕ × C) × T × ρ) :=
  if h : ms.length = 0 then none
  else
    let res := (ms.get ⟨(next r).1 % ms.length,
      Nat.mod_lt _ (Nat.pos_of_ne_zero h)⟩).modify (next r).2 obj
    some (((next r).1 % ms.length, res.1), res.2.1, res.2.2)

/-- The undo of the impl of Modifier for Vec: self[change.0].undo(&change.1, obj).
Out-of-bounds indexing panics in Rust: modelled as none. -/
def vecUndo {ρ T C : Type} (ms : List (Modifier ρ T C)) (ch : ℕ × C) (obj : T) :
    Option T :=
  (ms[ch.1]?).map (fun m => m.undo ch.2 obj)

/-- The redo of the impl of Modifier for Vec: self[change.0].redo(&change.1, obj). -/
def vecRedo {ρ T C : Type} (ms : List (Modifier ρ T C)) (ch : ℕ × C) (obj : T) :
    Option T :=
  (ms[ch.1]?).map (fun m => m.redo ch.2 obj)

/-- The laws the Modifier trait documentation demands of a well-behaved
modifier: undo exactly reverses the mutation a modify call just made, and
redo replays it, producing the identical post-modify state. -/
abbrev GoodModifier {ρ T C : Type} (m : Modifier ρ T C) : Prop :=
  ∀ (r : ρ) (obj : T),
    m.undo (m.modify r obj).1 (m.modify r obj).2.1 = obj ∧
    m.redo (m.modify r obj).1 obj = (m.modify r obj).2.1

/-- Undo a list of change records in reverse (most-recent-first) order, as the
pop loop and the undo method of ModifyOptimizer do. -/
def undoAll {ρ T C : Type} (m : Modifier ρ T C) (cs : List C) (obj : T) : T :=
  cs.foldr (fun c o => m.undo c o) obj

/-- Redo a list of change records in forward order, as the final replay loop
and the redo method of ModifyOptimizer do. -/
def redoAll {ρ T C : Type} (m : Modifier ρ T C) (cs : List C) (obj : T) : T :=
  cs.foldl (fun o c => m.redo c o) obj

/-- The local variables of ModifyOptimizer::modify between loop iterations:
the trial stack, the object being mutated, the ambient rng/modifier state, and
the best-so-far pair (sequence, score). -/
structure SearchState (ρ T C : Type) where
  stack : List C
  obj : T
  rng : ρ
  best : List C
  bestU : ℚ

/-- The inner depth loop of ModifyOptimizer::modify: d more iterations of
push a modify record, rescore, and promote the whole current stack to best on
a strict improvement (if best_utility < utility). -/
def depthLoop {ρ T C : Type} (m : Modifier ρ T C) (util : T → ℚ) :
    ℕ → SearchState ρ T C → SearchState ρ T C
  | 0, s => s
  | d + 1, s =>
      let res := m.modify s.rng s.obj
      let stack1 := s.stack ++ [res.1]
      let u := util res.2.1
      if s.bestU < u then
        depthLoop m util d ⟨stack1, res.2.1, res.2.2, stack1, u⟩
      else
        depthLoop m util d ⟨stack1, res.2.1, res.2.2, s.best, s.bestU⟩

/-- The outer tries loop of ModifyOptimizer::modify: each attempt runs the
depth loop and then pops the whole trial stack, undoing every record in
most-recent-first order (leaving the stack empty for the next attempt). -/
def triesLoop {ρ T C : Type} (m : Modifier ρ T C) (util : T → ℚ) :
    ℕ → ℕ → SearchState ρ T C → SearchState ρ T C
  | 0, _, s => s
  | t + 1, d, s =>
      let s1 := depthLoop m util d s
      triesLoop m util t d ⟨[], undoAll m s1.stack s1.obj, s1.rng, s1.best, s1.bestU⟩

/-- The ModifyOptimizer struct: a modifier, a utility, and the two budgets. -/
structure ModifyOptimizer (ρ T C : Type) where
  modifier : Modifier ρ T C
  utility : Utility T
  tries : ℕ
  depth : ℕ

/-- ModifyOptimizer::modify: best starts empty with the current utility of the
object as floor, the stack starts empty, tries attempts run, and finally the
best sequence is redone in forward order onto the (unwound) object.  Returns
the change record (the best sequence), the final object, and the final rng
state. -/
def ModifyOptimizer.modify {ρ T C : Type} (p : ModifyOptimizer ρ T C)
    (r : ρ) (obj : T) : List C × T × ρ :=
  let s := triesLoop p.modifier p.utility.utility p.tries p.depth
    ⟨[], obj, r, [], p.utility.utility obj⟩
  (s.best, redoAll p.modifier s.best s.obj, s.rng)

/-- ModifyOptimizer::undo: delegate undo for each record of the sequence in
reverse (most-recent-first) order. -/
def ModifyOptimizer.undo {ρ T C : Type} (p : ModifyOptimizer ρ T C)
    (ch : List C) (obj : T) : T :=
  undoAll p.modifier ch obj

/-- ModifyOptimizer.redo: delegate redo for each record of the sequence in
forward order. -/
def ModifyOptimizer.redo {ρ T C : Type} (p : ModifyOptimizer ρ T C)
    (ch : List C) (obj : T) : T :=
  redoAll p.modifier ch obj

/-- Feeding the output object of each ModifyOptimizer::modify call back as the
next input, as the example fixed-point loop does, threading the rng state. -/
def iterateOpt {ρ T C : Type} (p : ModifyOptimizer ρ T C) :
    ℕ → T → ρ → T × ρ
  | 0, obj, r => (obj, r)
  | n + 1, obj, r => iterateOpt p n (p.modify r obj).2.1 (p.modify r obj).2.2

/-- A concrete modifier used to instantiate hypotheses: flips a boolean. -/
def flipMod : Modifier Unit Bool Unit where
  modify := fun _ b => ((), !b, ())
  undo := fun _ b => !b
  redo := fun _ b => !b

/-- A concrete utility on booleans. -/
def boolUtil : Utility Bool := ⟨fun b => if b then 1 else 0⟩

/-- A concrete optimizer instance over booleans. -/
def flipOpt : ModifyOptimizer Unit Bool Unit :=
  ⟨flipMod, boolUtil, 2, 3⟩

/-- A concrete rng-step function for the aggregate instances. -/
def nextConst : Unit → ℕ × Unit := fun _ => (5, ())

/-- A concrete generator producing a constant. -/
def constGen : Generator Unit ℕ := ⟨fun r => (7, r)⟩

theorem undoAll_nil {ρ T C : Type} (m : Modifier ρ T C) (obj : T) :
    undoAll m [] obj = obj := rfl

theorem redoAll_nil {ρ T C : Type} (m : Modifier ρ T C) (a : T) :
    redoAll m [] a = a := rfl

theorem undoAll_append_one {ρ T C : Type} (m : Modifier ρ T C) (cs : List C)
    (c : C) (obj : T) :
    undoAll m (cs ++ [c]) obj = undoAll m cs (m.undo c obj) := by
  simp [undoAll, List.foldr_append]

theorem redoAll_append_one {ρ T C : Type} (m : Modifier ρ T C) (cs : List C)
    (c : C) (a : T) :
    redoAll m (cs ++ [c]) a = m.redo c (redoAll m cs a) := by
  simp [redoAll, List.foldl_append]

theorem depthLoop_succ {ρ T C : Type} (m : Modifier ρ T C) (util : T → ℚ)
    (d : ℕ) (s : SearchState ρ T C) :
    depthLoop m util (d + 1) s =
      (if s.bestU < util (m.modify s.rng s.obj).2.1 then
        depthLoop m util d ⟨s.stack ++ [(m.modify s.rng s.obj).1],
          (m.modify s.rng s.obj).2.1, (m.modify s.rng s.obj).2.2,
          s.stack ++ [(m.modify s.rng s.obj).1], util (m.modify s.rng s.obj).2.1⟩
      else
        depthLoop m util d ⟨s.stack ++ [(m.modify s.rng s.obj).1],
          (m.modify s.rng s.obj).2.1, (m.modify s.rng s.obj).2.2,
          s.best, s.bestU⟩) := by
  rw [depthLoop]

theorem triesLoop_succ {ρ T C : Type} (m : Modifier ρ T C) (util : T → ℚ)
    (t d : ℕ) (s : SearchState ρ T C) :
    triesLoop m util (t + 1) d s =
      triesLoop m util t d ⟨[],
        undoAll m (depthLoop m util d s).stack (depthLoop m util d s).obj,
        (depthLoop m util d s).rng, (depthLoop m util d s).best,
        (depthLoop m util d s).bestU⟩ := by
  rw [triesLoop]

theorem depthLoop_inv {ρ T C : Type} {m : Modifier ρ T C} (hm : GoodModifier m)
    (util : T → ℚ) (d : ℕ) (s : SearchState ρ T C) (a : T)
    (h1 : undoAll m s.stack s.obj = a)
    (h2 : redoAll m s.stack a = s.obj)
    (h3 : util (redoAll m s.best a) = s.bestU)
    (h4 : undoAll m s.best (redoAll m s.best a) = a) :
    undoAll m (depthLoop m util d s).stack (depthLoop m util d s).obj = a ∧
    redoAll m (depthLoop m util d s).stack a = (depthLoop m util d s).obj ∧
    util (redoAll m (depthLoop m util d s).best a) = (depthLoop m util d s).bestU ∧
    undoAll m (depthLoop m util d s).best
      (redoAll m (depthLoop m util d s).best a) = a ∧
    ((depthLoop m util d s).best = s.best ∧ (depthLoop m util d s).bestU = s.bestU ∨
      s.bestU < (depthLoop m util d s).bestU) := by
  induction d generalizing s with
  | zero => exact ⟨h1, h2, h3, h4, Or.inl ⟨rfl, rfl⟩⟩
  | succ d ih =>
    obtain ⟨hu, hr⟩ := hm s.rng s.obj
    have hs1u : undoAll m (s.stack ++ [(m.modify s.rng s.obj).1])
        (m.modify s.rng s.obj).2.1 = a := by
      rw [undoAll_append_one, hu, h1]
    have hs1r : redoAll m (s.stack ++ [(m.modify s.rng s.obj).1]) a =
        (m.modify s.rng s.obj).2.1 := by
      rw [redoAll_append_one, h2, hr]
    rw [depthLoop_succ]
    by_cases hlt : s.bestU < util (m.modify s.rng s.obj).2.1
    · rw [if_pos hlt]
      obtain ⟨g1, g2, g3, g4, g5⟩ := ih
        ⟨s.stack ++ [(m.modify s.rng s.obj).1], (m.modify s.rng s.obj).2.1,
          (m.modify s.rng s.obj).2.2, s.stack ++ [(m.modify s.rng s.obj).1],
          util (m.modify s.rng s.obj).2.1⟩
        hs1u hs1r (by rw [hs1r]) (by rw [hs1r]; exact hs1u)
      refine ⟨g1, g2, g3, g4, Or.inr ?_⟩
      rcases g5 with ⟨_, hb⟩ | hb
      · exact hb ▸ hlt
      · exact lt_trans hlt hb
    · rw [if_neg hlt]
      exact ih
        ⟨s.stack ++ [(m.modify s.rng s.obj).1], (m.modify s.rng s.obj).2.1,
          (m.modify s.rng s.obj).2.2, s.best, s.bestU⟩
        hs1u hs1r h3 h4

theorem triesLoop_inv {ρ T C : Type} {m : Modifier ρ T C} (hm : GoodModifier m)
    (util : T → ℚ) (t d : ℕ) (s : SearchState ρ T C)
    (hs : s.stack = [])
    (h3 : util (redoAll m s.best s.obj) = s.bestU)
    (h4 : undoAll m s.best (redoAll m s.best s.obj) = s.obj) :
    (triesLoop m util t d s).stack = [] ∧
    (triesLoop m util t d s).obj = s.obj ∧
    util (redoAll m (triesLoop m util t d s).best s.obj) =
      (triesLoop m util t d s).bestU ∧
    undoAll m (triesLoop m util t d s).best
      (redoAll m (triesLoop m util t d s).best s.obj) = s.obj ∧
    ((triesLoop m util t d s).best = s.best ∧
      (triesLoop m util t d s).bestU = s.bestU ∨
      s.bestU < (triesLoop m util t d s).bestU) := by
  induction t generalizing s with
  | zero => exact ⟨hs, rfl, h3, h4, Or.inl ⟨rfl, rfl⟩⟩
  | succ t ih =>
    have h1 : undoAll m s.stack s.obj = s.obj := by rw [hs, undoAll_nil]
    have h2 : redoAll m s.stack s.obj = s.obj := by rw [hs, redoAll_nil]
    obtain ⟨g1, g2, g3, g4, g5⟩ := depthLoop_inv hm util d s s.obj h1 h2 h3 h4
    rw [triesLoop_succ]
    obtain ⟨k1, k2, k3, k4, k5⟩ := ih
      ⟨[], undoAll m (depthLoop m util d s).stack (depthLoop m util d s).obj,
        (depthLoop m util d s).rng, (depthLoop m util d s).best,
        (depthLoop m util d s).bestU⟩
      rfl (by simpa [g1] using g3) (by simpa [g1] using g4)
    refine ⟨k1, by simpa [g1] using k2, by simpa [g1] using k3,
      by simpa [g1] using k4, ?_⟩
    rcases k5 with ⟨kb, ku⟩ | ku
    · rcases g5 with ⟨gb, gu⟩ | gu
      · exact Or.inl ⟨by simpa [gb] using kb, by simp only [ku]; exact gu⟩
      · exact Or.inr (by simpa [ku] using gu)
    · rcases g5 with ⟨gb, gu⟩ | gu
      · exact Or.inr (by simpa [gu] using ku)
      · exact Or.inr (lt_trans gu ku)

theorem depthLoop_best_or {ρ T C : Type} (m : Modifier ρ T C) (util : T → ℚ)
    (d : ℕ) (s : SearchState ρ T C) :
    (depthLoop m util d s).best = s.best ∧ (depthLoop m util d s).bestU = s.bestU ∨
      s.bestU < (depthLoop m util d s).bestU := by
  induction d generalizing s with
  | zero => exact Or.inl ⟨rfl, rfl⟩
  | succ d ih =>
    rw [depthLoop_succ]
    by_cases hlt : s.bestU < util (m.modify s.rng s.obj).2.1
    · rw [if_pos hlt]
      refine Or.inr ?_
      rcases ih ⟨s.stack ++ [(m.modify s.rng s.obj).1], (m.modify s.rng s.obj).2.1,
          (m.modify s.rng s.obj).2.2, s.stack ++ [(m.modify s.rng s.obj).1],
          util (m.modify s.rng s.obj).2.1⟩ with ⟨_, hb⟩ | hb
      · exact hb ▸ hlt
      · exact lt_trans hlt hb
    · rw [if_neg hlt]
      exact ih ⟨s.stack ++ [(m.modify s.rng s.obj).1], (m.modify s.rng s.obj).2.1,
          (m.modify s.rng s.obj).2.2, s.best, s.bestU⟩

theorem triesLoop_best_or {ρ T C : Type} (m : Modifier ρ T C) (util : T → ℚ)
    (t d : ℕ) (s : SearchState ρ T C) :
    (triesLoop m util t d s).best = s.best ∧ (triesLoop m util t d s).bestU = s.bestU ∨
      s.bestU < (triesLoop m util t d s).bestU := by
  induction t generalizing s with
  | zero => exact Or.inl ⟨rfl, rfl⟩
  | succ t ih =>
    rw [triesLoop_succ]
    rcases ih ⟨[], undoAll m (depthLoop m util d s).stack (depthLoop m util d s).obj,
        (depthLoop m util d s).rng, (depthLoop m util d s).best,
        (depthLoop m util d s).bestU⟩ with ⟨kb, ku⟩ | ku
    · rcases depthLoop_best_or m util d s with ⟨gb, gu⟩ | gu
      · exact Or.inl ⟨by simpa [gb] using kb, by simp only [ku]; exact gu⟩
      · exact Or.inr (by simpa [ku] using gu)
    · rcases depthLoop_best_or m util d s with ⟨gb, gu⟩ | gu
      · exact Or.inr (by simpa [gu] using ku)
      · exact Or.inr (lt_trans gu ku)

theorem depthLoop_le {ρ T C : Type} (m : Modifier ρ T C) (util : T → ℚ)
    (d : ℕ) (s : SearchState ρ T C) (k : ℕ)
    (hs : s.stack.length + d ≤ k) (hb : s.best.length ≤ k) :
    (depthLoop m util d s).stack.length ≤ k ∧
    (depthLoop m util d s).best.length ≤ k := by
  induction d generalizing s with
  | zero =>
    have hd : depthLoop m util 0 s = s := rfl
    rw [hd]
    exact ⟨by omega, hb⟩
  | succ d ih =>
    rw [depthLoop_succ]
    by_cases hlt : s.bestU < util (m.modify s.rng s.obj).2.1
    · rw [if_pos hlt]
      exact ih ⟨s.stack ++ [(m.modify s.rng s.obj).1], (m.modify s.rng s.obj).2.1,
          (m.modify s.rng s.obj).2.2, s.stack ++ [(m.modify s.rng s.obj).1],
          util (m.modify s.rng s.obj).2.1⟩
        (by simp; omega) (by simp; omega)
    · rw [if_neg hlt]
      exact ih ⟨s.stack ++ [(m.modify s.rng s.obj).1], (m.modify s.rng s.obj).2.1,
          (m.modify s.rng s.obj).2.2, s.best, s.bestU⟩
        (by simp; omega) hb

theorem triesLoop_le {ρ T C : Type} (m : Modifier ρ T C) (util : T → ℚ)
    (t d : ℕ) (s : SearchState ρ T C)
    (hs : s.stack = []) (hb : s.best.length ≤ d) :
    (triesLoop m util t d s).best.length ≤ d := by
  induction t generalizing s with
  | zero => exact hb
  | succ t ih =>
    rw [triesLoop_succ]
    refine ih ⟨[], _, _, _, _⟩ rfl ?_
    exact (depthLoop_le m util d s d (by simp [hs]) hb).2

theorem triesLoop_depth_zero {ρ T C : Type} (m : Modifier ρ T C) (util : T → ℚ)
    (t : ℕ) (s : SearchState ρ T C) (hs : s.stack = []) :
    triesLoop m util t 0 s = s := by
  induction t generalizing s with
  | zero => rfl
  | succ t ih =>
    rw [triesLoop_succ]
    have hd : depthLoop m util 0 s = s := rfl
    rw [hd, hs, undoAll_nil]
    have he : (⟨[], s.obj, s.rng, s.best, s.bestU⟩ : SearchState ρ T C) = s := by
      rw [← hs]
    rw [he]
    exact ih s hs

theorem depthLoop_unwind {ρ T C : Type} {m : Modifier ρ T C} (hm : GoodModifier m)
    (util : T → ℚ) (d : ℕ) (s : SearchState ρ T C) (a : T)
    (h1 : undoAll m s.stack s.obj = a) :
    undoAll m (depthLoop m util d s).stack (depthLoop m util d s).obj = a := by
  induction d generalizing s with
  | zero => exact h1
  | succ d ih =>
    obtain ⟨hu, _⟩ := hm s.rng s.obj
    have hs1u : undoAll m (s.stack ++ [(m.modify s.rng s.obj).1])
        (m.modify s.rng s.obj).2.1 = a := by rw [undoAll_append_one, hu, h1]
    rw [depthLoop_succ]
    by_cases hlt : s.bestU < util (m.modify s.rng s.obj).2.1
    · rw [if_pos hlt]
      exact ih ⟨s.stack ++ [(m.modify s.rng s.obj).1], (m.modify s.rng s.obj).2.1,
        (m.modify s.rng s.obj).2.2, s.stack ++ [(m.modify s.rng s.obj).1],
        util (m.modify s.rng s.obj).2.1⟩ hs1u
    · rw [if_neg hlt]
      exact ih ⟨s.stack ++ [(m.modify s.rng s.obj).1], (m.modify s.rng s.obj).2.1,
        (m.modify s.rng s.obj).2.2, s.best, s.bestU⟩ hs1u

theorem modify_main {ρ T C : Type} (p : ModifyOptimizer ρ T C) (r : ρ) (obj : T)
    (hm : GoodModifier p.modifier) :
    (p.modify r obj).2.1 = redoAll p.modifier (p.modify r obj).1 obj ∧
    undoAll p.modifier (p.modify r obj).1 (p.modify r obj).2.1 = obj ∧
    ((p.modify r obj).1 = [] ∧
        p.utility.utility (p.modify r obj).2.1 = p.utility.utility obj ∨
      p.utility.utility obj < p.utility.utility (p.modify r obj).2.1) := by
  obtain ⟨h0, hobj, hbest, hundo, hor⟩ := triesLoop_inv hm p.utility.utility
    p.tries p.depth ⟨[], obj, r, [], p.utility.utility obj⟩ rfl rfl rfl
  simp only [ModifyOptimizer.modify]
  refine ⟨by rw [hobj], ?_, ?_⟩
  · rw [hobj]
    exact hundo
  · rcases hor with ⟨hb, hu⟩ | hu
    · exact Or.inl ⟨hb, by rw [hobj, hbest, hu]⟩
    · exact Or.inr (by rw [hobj, hbest]; exact hu)

theorem modify_fix_or {ρ T C : Type} (p : ModifyOptimizer ρ T C) (r : ρ) (obj : T)
    (hm : GoodModifier p.modifier) :
    (p.modify r obj).2.1 = obj ∨
    p.utility.utility obj < p.utility.utility (p.modify r obj).2.1 := by
  obtain ⟨h1, _, h3⟩ := modify_main p r obj hm
  rcases h3 with ⟨hb, _⟩ | hu
  · left
    rw [h1, hb, redoAll_nil]
  · right
    exact hu

theorem iterateOpt_succ {ρ T C : Type} (p : ModifyOptimizer ρ T C)
    (n : ℕ) (obj : T) (r : ρ) :
    iterateOpt p (n + 1) obj r =
      ((p.modify (iterateOpt p n obj r).2 (iterateOpt p n obj r).1).2.1,
       (p.modify (iterateOpt p n obj r).2 (iterateOpt p n obj r).1).2.2) := by
  induction n generalizing obj r with
  | zero => rfl
  | succ n ih =>
    have e1 : iterateOpt p (n + 1 + 1) obj r =
        iterateOpt p (n + 1) (p.modify r obj).2.1 (p.modify r obj).2.2 := rfl
    have e2 : iterateOpt p (n + 1) obj r =
        iterateOpt p n (p.modify r obj).2.1 (p.modify r obj).2.2 := rfl
    rw [e1, ih, e2]

/-- C1: for every object, every modifier satisfying the exact-inverse and
determinism laws, and every utility function, after one call to
ModifyOptimizer::modify (any tries and depth) the utility of the resulting
object is greater than or equal to the utility of the original object. -/
theorem modifyOptimizer_non_regression {ρ T C : Type} (p : ModifyOptimizer ρ T C)
    (r : ρ) (obj : T) (hm : GoodModifier p.modifier) :
    p.utility.utility obj ≤ p.utility.utility (p.modify r obj).2.1 := by
  obtain ⟨_, _, h3⟩ := modify_main p r obj hm
  rcases h3 with ⟨_, he⟩ | hu
  · exact le_of_eq he.symm
  · exact le_of_lt hu

theorem modifyOptimizer_non_regression_witness :
    GoodModifier flipOpt.modifier ∧
    flipOpt.utility.utility false ≤
      flipOpt.utility.utility ((flipOpt.modify () false).2.1) :=
  ⟨by decide, modifyOptimizer_non_regression flipOpt () false (by decide)⟩

/-- C2: ModifyOptimizer::modify leaves the object in the state reached by
redoing the returned sequence from the original state; when the returned
sequence is empty, and in particular whenever tries or depth is zero, the
object is left exactly in its original input state. -/
theorem modifyOptimizer_best_state {ρ T C : Type} (p : ModifyOptimizer ρ T C)
    (r : ρ) (obj : T) (hm : GoodModifier p.modifier) :
    (p.modify r obj).2.1 = redoAll p.modifier (p.modify r obj).1 obj ∧
    ((p.modify r obj).1 = [] → (p.modify r obj).2.1 = obj) ∧
    (p.tries = 0 ∨ p.depth = 0 →
      (p.modify r obj).1 = [] ∧ (p.modify r obj).2.1 = obj) := by
  obtain ⟨h1, _, _⟩ := modify_main p r obj hm
  refine ⟨h1, ?_, ?_⟩
  · intro hb
    rw [h1, hb, redoAll_nil]
  · intro h0
    rcases h0 with h0 | h0
    · simp [ModifyOptimizer.modify, h0, triesLoop, redoAll_nil]
    · have hz := triesLoop_depth_zero p.modifier p.utility.utility p.tries
        (⟨[], obj, r, [], p.utility.utility obj⟩ : SearchState ρ T C) rfl
      simp only [ModifyOptimizer.modify, h0]
      rw [hz]
      exact ⟨rfl, rfl⟩

theorem modifyOptimizer_best_state_witness :
    GoodModifier flipOpt.modifier ∧
    (flipOpt.modify () false).2.1 =
      redoAll flipOpt.modifier (flipOpt.modify () false).1 false :=
  ⟨by decide, (modifyOptimizer_best_state flipOpt () false (by decide)).1⟩

/-- C3: for a change sequence produced by ModifyOptimizer::modify under the
single-edit inverse law, undo on the post-search object restores the
pre-search object and redo then restores the post-search object; undo applies
member undos in reverse (most-recent-first) order and redo applies member
redos in forward order. -/
theorem modifyOptimizer_sequence_inverse {ρ T C : Type} (p : ModifyOptimizer ρ T C)
    (r : ρ) (obj : T) (hm : GoodModifier p.modifier) :
    p.undo (p.modify r obj).1 (p.modify r obj).2.1 = obj ∧
    p.redo (p.modify r obj).1 obj = (p.modify r obj).2.1 ∧
    (∀ (cs : List C) (o : T),
      p.undo cs o = cs.reverse.foldl (fun x c => p.modifier.undo c x) o) ∧
    (∀ (cs : List C) (o : T),
      p.redo cs o = cs.foldl (fun x c => p.modifier.redo c x) o) := by
  obtain ⟨h1, h2, _⟩ := modify_main p r obj hm
  refine ⟨h2, h1.symm, ?_, fun cs o => rfl⟩
  intro cs o
  simp [ModifyOptimizer.undo, undoAll, List.foldl_reverse]

theorem modifyOptimizer_sequence_inverse_witness :
    GoodModifier flipOpt.modifier ∧
    flipOpt.undo (flipOpt.modify () false).1 ((flipOpt.modify () false).2.1) = false :=
  ⟨by decide, (modifyOptimizer_sequence_inverse flipOpt () false (by decide)).1⟩

/-- C4: at the end of each restart attempt (a depth loop started with an empty
trial stack), undoing the entire trial stack in most-recent-first order
restores the object to the state the attempt began from, and the tries loop
hands the next attempt exactly that same baseline object, so every attempt
restarts from the same original input state. -/
theorem modifyOptimizer_attempt_restores_baseline {ρ T C : Type}
    (m : Modifier ρ T C) (util : T → ℚ) (hm : GoodModifier m)
    (t d : ℕ) (s : SearchState ρ T C) (hs : s.stack = []) :
    undoAll m (depthLoop m util d s).stack (depthLoop m util d s).obj = s.obj ∧
    triesLoop m util (t + 1) d s =
      triesLoop m util t d ⟨[], s.obj, (depthLoop m util d s).rng,
        (depthLoop m util d s).best, (depthLoop m util d s).bestU⟩ := by
  have h1 : undoAll m s.stack s.obj = s.obj := by rw [hs, undoAll_nil]
  have hu := depthLoop_unwind hm util d s s.obj h1
  exact ⟨hu, by rw [triesLoop_succ, hu]⟩

theorem modifyOptimizer_attempt_restores_baseline_witness :
    GoodModifier flipMod ∧
    undoAll flipMod
      (depthLoop flipMod boolUtil.utility 2
        (⟨[], false, (), [], 0⟩ : SearchState Unit Bool Unit)).stack
      (depthLoop flipMod boolUtil.utility 2
        (⟨[], false, (), [], 0⟩ : SearchState Unit Bool Unit)).obj = false :=
  ⟨by decide, (modifyOptimizer_attempt_restores_baseline flipMod boolUtil.utility
    (by decide) 1 2 ⟨[], false, (), [], 0⟩ rfl).1⟩

/-- C5: the utility of an object under a list aggregate is the sum of the
member utilities; for two members it is exactly their sum, and for the empty
list it is exactly zero. -/
theorem vecUtility_sums {T : Type} (s1 s2 : Utility T) (us : List (Utility T))
    (o : T) :
    (vecUtility us).utility o = (us.map (fun u => u.utility o)).sum ∧
    (vecUtility [s1, s2]).utility o = s1.utility o + s2.utility o ∧
    (vecUtility ([] : List (Utility T))).utility o = 0 := by
  refine ⟨rfl, ?_, rfl⟩
  simp [vecUtility]

/-- C6: for a non-empty list of modifiers, modify returns the randomly chosen
index paired with that member record, undo and redo delegate exactly to the
member at the stored index, and a single-member list always records
index 0. -/
theorem vecModifier_index_routing {ρ T C : Type} (next : ρ → ℕ × ρ)
    (ms : List (Modifier ρ T C)) (r : ρ) (obj : T) (h : ms ≠ []) :
    vecModify next ms r obj =
      some (((next r).1 % ms.length,
        ((ms.get ⟨(next r).1 % ms.length,
          Nat.mod_lt _ (List.length_pos.mpr h)⟩).modify (next r).2 obj).1),
        ((ms.get ⟨(next r).1 % ms.length,
          Nat.mod_lt _ (List.length_pos.mpr h)⟩).modify (next r).2 obj).2.1,
        ((ms.get ⟨(next r).1 % ms.length,
          Nat.mod_lt _ (List.length_pos.mpr h)⟩).modify (next r).2 obj).2.2) ∧
    (∀ (j : Fin ms.length) (c : C) (o : T),
      vecUndo ms (j.1, c) o = some ((ms.get j).undo c o) ∧
      vecRedo ms (j.1, c) o = some ((ms.get j).redo c o)) ∧
    (∀ (m1 : Modifier ρ T C) (r1 : ρ) (o1 : T),
      (vecModify next [m1] r1 o1).map (fun x => x.1.1) = some 0) := by
  have h0 : ¬ ms.length = 0 := by simpa [List.length_eq_zero] using h
  refine ⟨?_, ?_, ?_⟩
  · simp only [vecModify]
    rw [dif_neg h0]
  · intro j c o
    constructor
    · simp [vecUndo, List.getElem?_eq_getElem j.2]
    · simp [vecRedo, List.getElem?_eq_getElem j.2]
  · intro m1 r1 o1
    simp [vecModify, Nat.mod_one]

theorem vecModifier_index_routing_witness :
    (([flipMod] : List (Modifier Unit Bool Unit)) ≠ []) ∧
    (vecModify nextConst [flipMod] () false).map (fun x => x.1.1) = some 0 :=
  ⟨by simp, (vecModifier_index_routing nextConst [flipMod] () false
    (by simp)).2.2 flipMod () false⟩

/-- C7: generate on an empty generator list and modify on an empty modifier
list hit the modulo-by-zero of the random index, a fatal panic modelled as
none; for a non-empty collection both operations always succeed and the
chosen index is in bounds. -/
theorem empty_collection_fatal {ρ T C α : Type} (next : ρ → ℕ × ρ)
    (gs : List (Generator ρ α)) (ms : List (Modifier ρ T C)) (r : ρ) (obj : T) :
    vecGenerate next ([] : List (Generator ρ α)) r = none ∧
    vecModify next ([] : List (Modifier ρ T C)) r obj = none ∧
    (gs ≠ [] → (vecGenerate next gs r).isSome = true) ∧
    (ms ≠ [] → ∃ i c o2 r2,
      vecModify next ms r obj = some ((i, c), o2, r2) ∧ i < ms.length) := by
  refine ⟨rfl, rfl, ?_, ?_⟩
  · intro h
    have h0 : ¬ gs.length = 0 := by simpa [List.length_eq_zero] using h
    simp only [vecGenerate]
    rw [dif_neg h0]
    rfl
  · intro h
    have h0 : ¬ ms.length = 0 := by simpa [List.length_eq_zero] using h
    refine ⟨(next r).1 % ms.length,
      ((ms.get ⟨(next r).1 % ms.length,
        Nat.mod_lt _ (Nat.pos_of_ne_zero h0)⟩).modify (next r).2 obj).1,
      ((ms.get ⟨(next r).1 % ms.length,
        Nat.mod_lt _ (Nat.pos_of_ne_zero h0)⟩).modify (next r).2 obj).2.1,
      ((ms.get ⟨(next r).1 % ms.length,
        Nat.mod_lt _ (Nat.pos_of_ne_zero h0)⟩).modify (next r).2 obj).2.2,
      ?_, Nat.mod_lt _ (Nat.pos_of_ne_zero h0)⟩
    simp only [vecModify]
    rw [dif_neg h0]

theorem empty_collection_fatal_witness :
    (([constGen] : List (Generator Unit ℕ)) ≠ []) ∧
    (vecGenerate nextConst [constGen] ()).isSome = true :=
  ⟨by simp, (empty_collection_fatal nextConst [constGen] [flipMod] () false).2.2.1
    (by simp)⟩

/-- C8: the best-so-far pair changes only on a strictly higher score (for both
the depth loop and the tries loop the incumbent pair is either kept exactly
or the best score strictly increases), a step whose score ties the best score
replaces nothing, and a non-empty returned sequence strictly exceeds the
initial object score, which is the floor. -/
theorem best_update_strict_only {ρ T C : Type} (m : Modifier ρ T C)
    (util : T → ℚ) (t d : ℕ) (s : SearchState ρ T C)
    (p : ModifyOptimizer ρ T C) (r : ρ) (obj : T)
    (hm : GoodModifier p.modifier) :
    ((depthLoop m util d s).best = s.best ∧ (depthLoop m util d s).bestU = s.bestU ∨
      s.bestU < (depthLoop m util d s).bestU) ∧
    ((triesLoop m util t d s).best = s.best ∧
        (triesLoop m util t d s).bestU = s.bestU ∨
      s.bestU < (triesLoop m util t d s).bestU) ∧
    (util (m.modify s.rng s.obj).2.1 ≤ s.bestU →
      (depthLoop m util 1 s).best = s.best ∧
      (depthLoop m util 1 s).bestU = s.bestU) ∧
    ((p.modify r obj).1 ≠ [] →
      p.utility.utility obj < p.utility.utility (p.modify r obj).2.1) := by
  refine ⟨depthLoop_best_or m util d s, triesLoop_best_or m util t d s, ?_, ?_⟩
  · intro hle
    have h01 : (1 : ℕ) = 0 + 1 := rfl
    rw [h01, depthLoop_succ, if_neg (not_lt.mpr hle)]
    exact ⟨rfl, rfl⟩
  · intro hne
    obtain ⟨_, _, h3⟩ := modify_main p r obj hm
    rcases h3 with ⟨hb, _⟩ | hu
    · exact absurd hb hne
    · exact hu

theorem best_update_strict_only_witness :
    GoodModifier flipOpt.modifier ∧ (flipOpt.modify () false).1 ≠ [] ∧
    flipOpt.utility.utility false <
      flipOpt.utility.utility ((flipOpt.modify () false).2.1) :=
  ⟨by decide, by decide, (best_update_strict_only flipMod boolUtil.utility 1 1
    ⟨[], false, (), [], 0⟩ flipOpt () false (by decide)).2.2.2 (by decide)⟩

/-- C9: over a finite object domain, for a modifier satisfying the laws,
repeatedly invoking ModifyOptimizer::modify with fixed tries and depth and
feeding each output object back as the next input eventually produces two
consecutive identical objects, a fixed point. -/
theorem repeated_modify_fixed_point {ρ T C : Type} [Fintype T]
    (p : ModifyOptimizer ρ T C) (obj : T) (r : ρ)
    (hm : GoodModifier p.modifier) :
    ∃ n, (iterateOpt p (n + 1) obj r).1 = (iterateOpt p n obj r).1 := by
  by_contra hc
  push_neg at hc
  have hstep : ∀ n, p.utility.utility (iterateOpt p n obj r).1 <
      p.utility.utility (iterateOpt p (n + 1) obj r).1 := by
    intro n
    rcases modify_fix_or p (iterateOpt p n obj r).2 (iterateOpt p n obj r).1 hm
      with he | hlt
    · refine absurd ?_ (hc n)
      rw [iterateOpt_succ]
      exact he
    · rw [iterateOpt_succ]
      exact hlt
  have hmono : StrictMono (fun n => p.utility.utility (iterateOpt p n obj r).1) :=
    strictMono_nat_of_lt_succ hstep
  have hinj : Function.Injective
      (fun k : Fin (Fintype.card T + 1) => (iterateOpt p k.1 obj r).1) := by
    intro k1 k2 hk
    have hval : p.utility.utility (iterateOpt p k1.1 obj r).1 =
        p.utility.utility (iterateOpt p k2.1 obj r).1 := by
      simp only at hk
      rw [hk]
    exact Fin.ext (hmono.injective hval)
  have hcard := Fintype.card_le_of_injective _ hinj
  simp only [Fintype.card_fin] at hcard
  omega

theorem repeated_modify_fixed_point_witness :
    GoodModifier flipOpt.modifier ∧
    ∃ n, (iterateOpt flipOpt (n + 1) false ()).1 = (iterateOpt flipOpt n false ()).1 :=
  ⟨by decide, repeated_modify_fixed_point flipOpt false () (by decide)⟩

/-- C10: the change sequence returned by ModifyOptimizer::modify always has
length at most depth, being a snapshot of a single attempt trial stack. -/
theorem modify_change_length_le_depth {ρ T C : Type} (p : ModifyOptimizer ρ T C)
    (r : ρ) (obj : T) :
    (p.modify r obj).1.length ≤ p.depth :=
  triesLoop_le p.modifier p.utility.utility p.tries p.depth
    ⟨[], obj, r, [], p.utility.utility obj⟩ rfl (Nat.zero_le _)
